import Mathlib

/-!
Verification of the coordination core of `slow_dbus_server.c`: a shallow
embedding of its interest/timeout registries, event-loop wait-set and
timeout computation, completion queue (the `finished` linked list), and the
`compute_primes` worker computation, together with theorems settling the
specification claims.

Machine `unsigned long` values are modelled as `Nat` with an explicit
`% 2 ^ 64` exactly where the C program can overflow (the outer candidate
`i` in `compute_primes`); loops whose termination is itself in question are
modelled with explicit fuel.
-/

set_option maxHeartbeats 1000000
set_option maxRecDepth 16000

namespace SlowDbusServer

/-! ## Interest registry (`watches` / `timeouts` arrays)

The C program keeps bounded arrays `watches[MAX_WATCHES]` and
`timeouts[MAX_TIMEOUTS]` with counts `nr_watches` / `nr_timeouts`.  A bounded
array with its count is modelled as a `List` of registered handles (opaque
`DBusWatch*` / `DBusTimeout*` pointers modelled as `Nat`); appending at index
`nr` is appending at the end of the list, and the removal loop's shift-down
compaction is removal of the first occurrence. -/

def MAX_WATCHES : Nat := 3

def MAX_TIMEOUTS : Nat := 3

/-- `add_watch` (slow_dbus_server.c lines 139-156): succeed and append when
below capacity, otherwise fail and leave the table unchanged. -/
def add_watch (watch : Nat) (watches : List Nat) : Bool × List Nat :=
  if watches.length < MAX_WATCHES then (true, watches ++ [watch])
  else (false, watches)

/-- `remove_watch` (lines 158-183): find the first matching entry, shift the
rest down; a no-op when the watch is not found. -/
def remove_watch (watch : Nat) : List Nat → List Nat
  | [] => []
  | w :: rest => if w = watch then rest else w :: remove_watch watch rest

/-- `toggle_watch` (lines 185-199): dispatch on the watch's current enabled
flag (read from the transport-owned `DBusWatch`, modelled as an environment
`enabled : Nat → Bool`). -/
def toggle_watch (enabled : Nat → Bool) (watch : Nat) (watches : List Nat) :
    List Nat :=
  if enabled watch then (add_watch watch watches).2
  else remove_watch watch watches

/-- `add_timeout` (lines 201-218). -/
def add_timeout (timeout : Nat) (timeouts : List Nat) : Bool × List Nat :=
  if timeouts.length < MAX_TIMEOUTS then (true, timeouts ++ [timeout])
  else (false, timeouts)

/-- `remove_timeout` (lines 220-245). -/
def remove_timeout (timeout : Nat) : List Nat → List Nat
  | [] => []
  | t :: rest => if t = timeout then rest else t :: remove_timeout timeout rest

/-- `toggle_timeout` (lines 247-261). -/
def toggle_timeout (enabled : Nat → Bool) (timeout : Nat)
    (timeouts : List Nat) : List Nat :=
  if enabled timeout then (add_timeout timeout timeouts).2
  else remove_timeout timeout timeouts

/-! ## Timer registry state as seen by `handle_event`

For the wait-timeout computation and the expiry scan, a `DBusTimeout` is
read through `dbus_timeout_get_enabled` and `dbus_timeout_get_interval`
(a C `int`, in milliseconds, hence `Int`). -/

structure TimeoutS where
  enabled : Bool
  interval : Int
deriving DecidableEq

/-- One step of the `total_timeout` accumulation in `handle_event`
(lines 292-303): `if (total_timeout < 0 or total_timeout > interval)
total_timeout = interval`, guarded by the enabled flag. -/
def timeout_fold (total_timeout : Int) (t : TimeoutS) : Int :=
  if t.enabled then
    (if total_timeout < 0 ∨ total_timeout > t.interval then t.interval
     else total_timeout)
  else total_timeout

/-- The wait timeout handed to `poll` by `handle_event`: starts at `-1`
("block indefinitely") and scans all registered timeouts. -/
def total_timeout_of (timeouts : List TimeoutS) : Int :=
  timeouts.foldl timeout_fold (-1)

/-- Modelled from the spec wording of `minimum_enabled_interval()`: the
smallest interval among currently enabled timers, or `-1` ("no limit") when
none is enabled.  Used to compare the code's fold against the claim. -/
def minimum_enabled_interval (timeouts : List TimeoutS) : Int :=
  (((timeouts.filter fun t => t.enabled).map fun t => t.interval).min?).getD
    (-1)

/-- The set of timeouts whose expiry handler `handle_event` invokes after
`poll` returns (lines 429-437): the C condition is
`dbus_timeout_get_enabled(timeout) and dbus_timeout_get_interval(timeout) >
interval`, where the local `interval` is the elapsed time since the
iteration's start timestamp. -/
def fired_timeouts (timeouts : List TimeoutS) (elapsed : Int) :
    List TimeoutS :=
  timeouts.filter fun t => t.enabled && decide (t.interval > elapsed)

/-! ## Wait-set construction (`topoll`)

`handle_event` lines 266-291: one `struct pollfd` per registered watch
(every watch, enabled or not: a disabled watch keeps its slot with an empty
`events` mask), followed by one entry for `notify_receive_pipe` with
`POLLIN`. -/

def POLLIN : Nat := 1

def POLLOUT : Nat := 4

def POLLERR : Nat := 8

def DBUS_WATCH_READABLE : Nat := 1

def DBUS_WATCH_WRITABLE : Nat := 2

/-- A registered `DBusWatch` as read by the wait-set builder: its unix fd,
enabled flag, and interest flags. -/
structure WatchS where
  fd : Int
  enabled : Bool
  readable : Bool
  writable : Bool
deriving DecidableEq

structure PollFdEntry where
  fd : Int
  events : Nat
deriving DecidableEq

/-- The `events` mask computed for one watch (lines 273-285): starts at 0;
only when the watch is enabled are `POLLIN|POLLERR` and/or `POLLOUT|POLLERR`
or-ed in according to the interest flags. -/
def watch_events (w : WatchS) : Nat :=
  if w.enabled then
    (if w.readable then POLLIN ||| POLLERR else 0) |||
      (if w.writable then POLLOUT ||| POLLERR else 0)
  else 0

/-- The full `topoll` array handed to `poll`: entries `0 .. nr_watches-1`
for the watches, entry `nr_watches` for the notification pipe. -/
def build_pollfds (watches : List WatchS) (notify_receive_pipe : Int) :
    List PollFdEntry :=
  (watches.map fun w => ⟨w.fd, watch_events w⟩) ++
    [⟨notify_receive_pipe, POLLIN⟩]

/-- Modelled from the spec wording of claim C8: one entry per *enabled*
InterestSource configured with its interest flags, plus the wakeup entry;
disabled sources contribute no entry. -/
def claimed_pollfds (watches : List WatchS) (notify_receive_pipe : Int) :
    List PollFdEntry :=
  ((watches.filter fun w => w.enabled).map fun w => ⟨w.fd, watch_events w⟩) ++
    [⟨notify_receive_pipe, POLLIN⟩]

/-! ## Reply encoding (`handle_event` lines 374-413)

The reply re-encodes the stored `unsigned long` result at the width the
caller requested (`entry->valtype`): a narrowing C assignment to
`unsigned char` / `unsigned short` / `unsigned int` is reduction mod the
width, and `DBUS_TYPE_UINT64` passes the value through unchanged. -/

inductive ValType
  | byte
  | uint16
  | uint32
  | uint64
deriving DecidableEq

def valtype_bits : ValType → Nat
  | .byte => 8
  | .uint16 => 16
  | .uint32 => 32
  | .uint64 => 64

/-- The value placed in the reply for a stored result (the narrowing
assignments `bresult = entry->result` etc. in the `switch`). -/
def reencode_result : ValType → Nat → Nat
  | .byte, result => result % 2 ^ 8
  | .uint16, result => result % 2 ^ 16
  | .uint32, result => result % 2 ^ 32
  | .uint64, result => result

/-! ## Completion queue (`finished` / `finished_last`)

The queue of completed `workqueue_entry` nodes is a singly linked list:
head pointer `finished`, tail pointer `finished_last`, and the per-node
`next` fields.  Node addresses are modelled as `Nat`, a nullable pointer as
`Option Nat`, and the heap of `next` fields as a function
`Nat → Option Nat`. -/

structure WorkQueue where
  finished : Option Nat
  finished_last : Option Nat
  next : Nat → Option Nat

/-- Worker-side push of a completed entry (`compute_primes` lines
512-522): `context->next = NULL`, then either initialise both head and
tail (empty queue) or link behind the current tail and advance it.  The
branch with a null `finished_last` but non-null `finished` dereferences a
null pointer in C; it is unreachable under the queue invariant and
modelled as performing no `next` write. -/
def wq_push (context : Nat) (q : WorkQueue) : WorkQueue :=
  let next0 : Nat → Option Nat :=
    fun p => if p = context then none else q.next p
  match q.finished with
  | none =>
      { finished := some context, finished_last := some context,
        next := next0 }
  | some head =>
      match q.finished_last with
      | some last =>
          { finished := some head, finished_last := some context,
            next := fun p => if p = last then some context else next0 p }
      | none =>
          { finished := some head, finished_last := some context,
            next := next0 }

/-- Sequence of back-to-back worker pushes (several workers finishing
before the loop observes the wake). -/
def push_all (contexts : List Nat) (q : WorkQueue) : WorkQueue :=
  contexts.foldl (fun q c => wq_push c q) q

/-- Loop-side drain of the whole queue (`handle_event` lines 351-425): pop
the head repeatedly, processing each entry in list order, until the head is
null, then clear `finished_last`.  The returned list is the order in which
entries are processed; `fuel` bounds the number of iterations (the C loop
is unbounded). -/
def drain_all (q : WorkQueue) (fuel : Nat) (acc : List Nat) :
    Option (List Nat × WorkQueue) :=
  match fuel with
  | 0 => none
  | fuel + 1 =>
      match q.finished with
      | none => some (acc, { q with finished_last := none })
      | some entry =>
          drain_all { q with finished := q.next entry } fuel (acc ++ [entry])

/-- The heap chain reachable from a head pointer: `Chain next o l` says
that starting at `o` and following `next` visits exactly the nodes of `l`
and ends at a null pointer. -/
inductive Chain (next : Nat → Option Nat) : Option Nat → List Nat → Prop
  | nil : Chain next none []
  | cons {p : Nat} {rest : List Nat} (h : Chain next (next p) rest) :
      Chain next (some p) (p :: rest)

/-- The completion-queue invariant: the nodes reachable from `finished`
form a finite chain of distinct nodes ending in a null `next`, and
`finished_last` points at the last node of that chain (null for the empty
chain). -/
def QueueInv (q : WorkQueue) : Prop :=
  ∃ l : List Nat,
    Chain q.next q.finished l ∧ l.Nodup ∧ q.finished_last = l.getLast?

/-- The initial completion queue: both pointers null (`finished = NULL`,
`finished_last = NULL`), no links. -/
def empty_queue : WorkQueue := ⟨none, none, fun _ => none⟩

/-! ## The worker computation `compute_primes` (lines 459-531)

All loop variables are C `unsigned long`s.  The candidate `i` is the one
place where wrap-around is reachable (`i += step` at `i = ULONG_MAX`), so
its update carries an explicit `% 2 ^ 64`; the divisor `j` leaves the loop
no later than `j * j > i`, far below the wrap-around point, and the count
`result` is bounded by the number of candidates. -/

def ULONG_MOD : Nat := 2 ^ 64

/-- The inner trial-division loop (lines 478-494): from divisor `j`
upward, report prime as soon as `i / j < j` (no factor found up to `√i`)
and composite as soon as `j` divides `i`. -/
def innerPrime (i j : Nat) : Bool :=
  if i / j < j then true
  else if i % j = 0 then false
  else innerPrime i (j + 1)
termination_by i + 1 - j
decreasing_by
  have h1 : j ≤ i / j := Nat.le_of_not_lt (by assumption)
  have h2 : j ≤ i := le_trans h1 (Nat.div_le_self i j)
  omega

/-- The inner trial-division loop again, with an explicit iteration bound
instead of a termination argument; used to settle claim C10's statement
that the loop terminates. -/
def inner_loop_fuel (i j fuel : Nat) : Option Bool :=
  match fuel with
  | 0 => none
  | fuel + 1 =>
      if i / j < j then some true
      else if i % j = 0 then some false
      else inner_loop_fuel i (j + 1) fuel

/-- The outer counting loop (lines 470-501) with an explicit iteration
bound: exit once `i > limit`, otherwise test candidate `i`, bump `result`,
and advance `i` by `step` (1 for the first step from 2 to 3, 2 afterwards)
with 64-bit wrap-around. -/
def outer_loop (limit fuel i step result : Nat) : Option Nat :=
  match fuel with
  | 0 => none
  | fuel + 1 =>
      if limit < i then some result
      else
        outer_loop limit fuel ((i + step) % ULONG_MOD) 2
          (if innerPrime i 2 then result + 1 else result)

/-- The whole worker computation for a given `limit`, from its initial
state `i = 2`, `step = 1`, `result = 0`; `none` means the loop has not
finished within `fuel` iterations. -/
def compute_primes (limit fuel : Nat) : Option Nat :=
  outer_loop limit fuel 2 1 0

/-- Spec-side predicate from claim C1: `n` has no divisor in `[2, √n]`. -/
def no_small_divisor (n : Nat) : Prop :=
  ∀ d ∈ Finset.Icc 2 (Nat.sqrt n), ¬ d ∣ n

/-- A kernel-computable equivalent of `no_small_divisor` (`d ≤ √n` is
`d * d ≤ n`; `Nat.sqrt` itself is defined by well-founded recursion and
does not evaluate inside `decide`). -/
def nsd_decidable_aux (n : Nat) :
    Decidable (∀ d ∈ Finset.Icc 2 n, ¬ (d * d ≤ n ∧ d ∣ n)) :=
  inferInstance

instance no_small_divisor_dec : DecidablePred no_small_divisor := fun n =>
  @decidable_of_iff _ _ (by
    constructor
    · intro h d hd hdvd
      rw [Finset.mem_Icc] at hd
      have hdd : d * d ≤ n := Nat.le_sqrt.mp hd.2
      have hdn : d ≤ n := by
        have h1 : d * 1 ≤ d * d := Nat.mul_le_mul_left d (by omega)
        simp at h1
        omega
      exact h d (Finset.mem_Icc.mpr ⟨hd.1, hdn⟩) ⟨hdd, hdvd⟩
    · intro h d hd hc
      rw [Finset.mem_Icc] at hd
      exact h d (Finset.mem_Icc.mpr ⟨hd.1, Nat.le_sqrt.mpr hc.1⟩) hc.2)
    (nsd_decidable_aux n)

/-- Spec-side count from claim C1: the number of integers in `[2, limit]`
having no divisor in `[2, √n]` (the naive prime count). -/
def naive_prime_count (limit : Nat) : Nat :=
  ((Finset.Icc 2 limit).filter no_small_divisor).card

/-- The outer loop from an odd candidate `i` on visits exactly the odd
numbers of `[i, limit]`; this counts those that pass the trial-division
test. -/
def odd_good_count (i limit : Nat) : Nat :=
  ((Finset.Icc i limit).filter fun m => m % 2 = 1 ∧ no_small_divisor m).card

/-- Divergence of the worker computation: no amount of fuel makes the
outer loop finish. -/
def compute_primes_diverges (limit : Nat) : Prop :=
  ∀ fuel, compute_primes limit fuel = none

end SlowDbusServer

namespace SlowDbusServer

/-! ## Theorems -/

/-- Claim C3: the spec says `handle_event` invokes the expiry handler of
every enabled timer whose interval is at most the elapsed time, and no
other.  The code's condition at line 433 is inverted
(`dbus_timeout_get_interval(timeout) > interval`): with elapsed time 10 ms
an enabled timer of interval 5 ms is *not* fired, while an enabled timer of
interval 20 ms *is* fired. -/
theorem C3_timer_condition_inverted :
    fired_timeouts [⟨true, 5⟩] 10 = [] ∧
      fired_timeouts [⟨true, 20⟩] 10 = [⟨true, 20⟩] := by
  constructor <;> rfl

/-- Claim C4: a computed result that fits the caller-requested width is
unchanged by the re-encoding performed when building the reply. -/
theorem C4_reencode_roundtrip (vt : ValType) (result : Nat)
    (hfit : result < 2 ^ valtype_bits vt) :
    reencode_result vt result = result := by
  cases vt
  · exact Nat.mod_eq_of_lt hfit
  · exact Nat.mod_eq_of_lt hfit
  · exact Nat.mod_eq_of_lt hfit
  · rfl

/-- Witness for C4 at the byte width. -/
theorem C4_witness :
    25 < 2 ^ valtype_bits ValType.byte ∧
      reencode_result ValType.byte 25 = 25 :=
  ⟨by decide, C4_reencode_roundtrip ValType.byte 25 (by decide)⟩

/-- Claim C5: when the bounded table is full, `add_watch` / `add_timeout`
report failure and leave the registered set unchanged; when it is not full
they store the source and report success. -/
theorem C5_add_capacity (w t : Nat) (lw lt : List Nat) :
    (lw.length = MAX_WATCHES → add_watch w lw = (false, lw)) ∧
      (lw.length < MAX_WATCHES → add_watch w lw = (true, lw ++ [w])) ∧
      (lt.length = MAX_TIMEOUTS → add_timeout t lt = (false, lt)) ∧
      (lt.length < MAX_TIMEOUTS → add_timeout t lt = (true, lt ++ [t])) := by
  refine ⟨fun h => ?_, fun h => ?_, fun h => ?_, fun h => ?_⟩ <;>
    simp [add_watch, add_timeout, h]

/-- Witness for C5: a full table of three watches rejects a fourth, a
table with one timeout accepts a second. -/
theorem C5_witness :
    add_watch 9 [4, 5, 6] = (false, [4, 5, 6]) ∧
      add_timeout 9 [4] = (true, [4, 9]) :=
  ⟨(C5_add_capacity 9 9 [4, 5, 6] [4]).1 (by decide),
    (C5_add_capacity 9 9 [4, 5, 6] [4]).2.2.2 (by decide)⟩

/-- Claim C7: `toggle_watch` / `toggle_timeout` dispatch to add when the
source's enabled flag is set and to remove when it is clear, so toggling a
source off and then on is exactly one remove followed by one add. -/
theorem C7_toggle_dispatch (env₁ env₂ : Nat → Bool) (s : Nat)
    (lw lt : List Nat) :
    (env₁ s = true → toggle_watch env₁ s lw = (add_watch s lw).2) ∧
      (env₁ s = false → toggle_watch env₁ s lw = remove_watch s lw) ∧
      (env₁ s = false → env₂ s = true →
        toggle_watch env₂ s (toggle_watch env₁ s lw) =
          (add_watch s (remove_watch s lw)).2) ∧
      (env₁ s = true → toggle_timeout env₁ s lt = (add_timeout s lt).2) ∧
      (env₁ s = false → toggle_timeout env₁ s lt = remove_timeout s lt) ∧
      (env₁ s = false → env₂ s = true →
        toggle_timeout env₂ s (toggle_timeout env₁ s lt) =
          (add_timeout s (remove_timeout s lt)).2) := by
  refine ⟨fun h => ?_, fun h => ?_, fun h h' => ?_, fun h => ?_,
    fun h => ?_, fun h h' => ?_⟩
  · simp [toggle_watch, h]
  · simp [toggle_watch, h]
  · simp [toggle_watch, h, h']
  · simp [toggle_timeout, h]
  · simp [toggle_timeout, h]
  · simp [toggle_timeout, h, h']

/-- Witness for C7: toggling watch 1 off then on in the registry `[1, 2]`
equals removing it and adding it back. -/
theorem C7_witness :
    toggle_watch (fun _ => true) 1
        (toggle_watch (fun _ => false) 1 [1, 2]) =
      (add_watch 1 (remove_watch 1 [1, 2])).2 :=
  (C7_toggle_dispatch (fun _ => false) (fun _ => true) 1 [1, 2] []).2.2.1
    rfl rfl

/-- Helper: once the accumulator is nonnegative, the `total_timeout` scan
computes a running minimum of the enabled intervals. -/
theorem foldl_timeout_fold_min (l : List TimeoutS) :
    ∀ acc : Int, 0 ≤ acc → (∀ t ∈ l, 0 ≤ t.interval) →
      l.foldl timeout_fold acc =
        ((l.filter fun t => t.enabled).map fun t => t.interval).foldl min
          acc := by
  induction l with
  | nil => intro acc _ _; rfl
  | cons t rest ih =>
    intro acc hacc hpos
    have hti : (0 : Int) ≤ t.interval := hpos t (by simp)
    by_cases ht : t.enabled = true
    · have hstep : timeout_fold acc t = min acc t.interval := by
        simp only [timeout_fold, if_pos ht]
        rcases le_or_lt acc t.interval with h | h
        · rw [if_neg (by omega), min_eq_left h]
        · rw [if_pos (Or.inr h), min_eq_right h.le]
      simp only [List.foldl_cons, hstep, List.filter_cons, ht, if_pos,
        List.map_cons]
      exact ih (min acc t.interval) (le_min hacc hti)
        (fun u hu => hpos u (by simp [hu]))
    · have hstep : timeout_fold acc t = acc := by
        simp [timeout_fold, ht]
      simp only [List.foldl_cons, hstep, List.filter_cons, ht,
        if_false, decide_eq_true_eq, Bool.false_eq_true]
      exact ih acc hacc (fun u hu => hpos u (by simp [hu]))

/-- Claim C6: in every event-loop iteration the wait timeout handed to
`poll` is the minimum interval among currently enabled timeouts, or `-1`
(block indefinitely) when none is enabled.  (D-Bus timeout intervals are
nonnegative millisecond counts, which the hypothesis records.) -/
theorem C6_wait_timeout (timeouts : List TimeoutS)
    (hpos : ∀ t ∈ timeouts, 0 ≤ t.interval) :
    total_timeout_of timeouts = minimum_enabled_interval timeouts := by
  induction timeouts with
  | nil => rfl
  | cons t rest ih =>
    have hti : (0 : Int) ≤ t.interval := hpos t (by simp)
    by_cases ht : t.enabled = true
    · have h1 : timeout_fold (-1) t = t.interval := by
        simp only [timeout_fold, if_pos ht]
        rw [if_pos (Or.inl (by omega))]
      unfold total_timeout_of minimum_enabled_interval
      simp only [List.foldl_cons, h1, List.filter_cons, ht, if_pos,
        List.map_cons, List.min?_cons']
      rw [foldl_timeout_fold_min rest t.interval hti
        (fun u hu => hpos u (by simp [hu]))]
      rfl
    · have h1 : timeout_fold (-1) t = -1 := by simp [timeout_fold, ht]
      unfold total_timeout_of minimum_enabled_interval
      simp only [List.foldl_cons, h1, List.filter_cons, ht,
        if_false, decide_eq_true_eq, Bool.false_eq_true]
      exact ih (fun u hu => hpos u (by simp [hu]))

/-- Witness for C6: with enabled intervals 30 and 20 and a disabled 10, the
computed poll timeout is 20. -/
theorem C6_witness :
    total_timeout_of [⟨true, 30⟩, ⟨false, 10⟩, ⟨true, 20⟩] =
      minimum_enabled_interval [⟨true, 30⟩, ⟨false, 10⟩, ⟨true, 20⟩] :=
  C6_wait_timeout [⟨true, 30⟩, ⟨false, 10⟩, ⟨true, 20⟩] (by decide)

/-- Claim C8 as stated is false: a disabled watch still contributes an
entry to `topoll` (with an empty `events` mask).  With one disabled
readable watch the built wait set has two entries, while the claimed wait
set (enabled sources only, plus the wakeup entry) has one. -/
theorem C8_counterexample :
    build_pollfds [⟨5, false, true, false⟩] 7 ≠
      claimed_pollfds [⟨5, false, true, false⟩] 7 := by
  decide

/-- Claim C8, amended: the wait set has exactly one entry per registered
InterestSource — enabled ones configured with their interest flags,
disabled ones with an empty event mask — plus a final entry for the Wakeup
Channel's read endpoint with read interest. -/
theorem C8_wait_set (watches : List WatchS) (notify_receive_pipe : Int) :
    (build_pollfds watches notify_receive_pipe).length =
        watches.length + 1 ∧
      (∀ i (h : i < watches.length),
        (build_pollfds watches notify_receive_pipe)[i]? =
          some ⟨watches[i].fd, watch_events watches[i]⟩) ∧
      (build_pollfds watches notify_receive_pipe).getLast? =
        some ⟨notify_receive_pipe, POLLIN⟩ ∧
      (∀ w : WatchS, w.enabled = false → watch_events w = 0) := by
  refine ⟨?_, ?_, ?_, ?_⟩
  · simp [build_pollfds]
  · intro i h
    rw [build_pollfds, List.getElem?_append_left (by simpa using h),
      List.getElem?_map, List.getElem?_eq_getElem h]
    rfl
  · rw [build_pollfds, List.getLast?_concat]
  · intro w hw
    simp [watch_events, hw]

/-- Witness for C8: the registry with one disabled readable watch yields a
two-entry wait set whose first entry has an empty mask. -/
theorem C8_witness :
    (build_pollfds [⟨5, false, true, false⟩] 7).length = 2 ∧
      (build_pollfds [⟨5, false, true, false⟩] 7)[0]? = some ⟨5, 0⟩ := by
  refine ⟨(C8_wait_set [⟨5, false, true, false⟩] 7).1, ?_⟩
  have h := (C8_wait_set [⟨5, false, true, false⟩] 7).2.1 0 (by decide)
  exact h.trans (by decide)

/-- Helper: a chain starting at a null pointer is empty, and conversely. -/
theorem chain_none_iff {next : Nat → Option Nat} {o : Option Nat}
    {l : List Nat} (h : Chain next o l) : o = none ↔ l = [] := by
  cases h with
  | nil => simp
  | cons _ => simp

/-- Helper: the last node of a chain has a null `next` field. -/
theorem chain_getLast_next {next : Nat → Option Nat} :
    ∀ (l : List Nat) (o : Option Nat) (p : Nat),
      Chain next o l → l.getLast? = some p → next p = none := by
  intro l
  induction l with
  | nil => intro o p _ hl; simp at hl
  | cons a rest ih =>
    intro o p hch hl
    cases hch with
    | cons hrest =>
      cases rest with
      | nil =>
        have hap : a = p := by simpa using hl
        subst hap
        exact (chain_none_iff hrest).mpr rfl
      | cons r rest' =>
        exact ih (next a) p hrest (by simpa using hl)

/-- Helper: rewriting the last node's `next` to point at a fresh node, and
nulling the fresh node's `next`, extends a chain by that node.  This is
exactly the heap update performed by `wq_push` on a nonempty queue. -/
theorem chain_snoc {next : Nat → Option Nat} :
    ∀ (l : List Nat) (o : Option Nat) (last context : Nat),
      Chain next o l → l.Nodup → context ∉ l → l.getLast? = some last →
      Chain
        (fun p => if p = last then some context
          else if p = context then none else next p)
        o (l ++ [context]) := by
  intro l
  induction l with
  | nil => intro o last context _ _ _ hl; simp at hl
  | cons a rest ih =>
    intro o last context hch hnd hctx hl
    have hactx : a ≠ context := by
      intro he
      exact hctx (by simp [he])
    cases hch with
    | cons hrest =>
      cases rest with
      | nil =>
        have hla : a = last := by simpa using hl
        subst hla
        refine Chain.cons ?_
        have h2 : Chain
            (fun p => if p = a then some context
              else if p = context then none else next p)
            (some context) [context] := by
          refine Chain.cons ?_
          have h3 : Chain
              (fun p => if p = a then some context
                else if p = context then none else next p)
              none [] := Chain.nil
          simpa [Ne.symm hactx] using h3
        simpa using h2
      | cons r rest' =>
        have hl' : (r :: rest').getLast? = some last := by simpa using hl
        have hmem : last ∈ r :: rest' := List.mem_of_getLast?_eq_some hl'
        have hane : a ≠ last := by
          intro he
          exact (List.nodup_cons.mp hnd).1 (he ▸ hmem)
        refine Chain.cons ?_
        have h4 := ih (next a) last context hrest (List.nodup_cons.mp hnd).2
          (fun hc => hctx (by simp [hc])) hl'
        simpa [hane, hactx] using h4

/-- Helper: `wq_push` of a fresh node extends the queue's chain by that
node at the tail and keeps the invariant's components. -/
theorem wq_push_chain (q : WorkQueue) (l : List Nat) (context : Nat)
    (hch : Chain q.next q.finished l) (hnd : l.Nodup)
    (hlast : q.finished_last = l.getLast?) (hctx : context ∉ l) :
    Chain (wq_push context q).next (wq_push context q).finished
        (l ++ [context]) ∧
      (l ++ [context]).Nodup ∧
      (wq_push context q).finished_last = (l ++ [context]).getLast? := by
  obtain ⟨f, fl, nx⟩ := q
  simp only at hch hlast ⊢
  cases f with
  | none =>
    cases hch with
    | nil =>
      refine ⟨?_, by simp, by simp [wq_push]⟩
      simp only [wq_push, List.nil_append]
      refine Chain.cons ?_
      have h1 : Chain (fun p => if p = context then none else nx p)
          none [] := Chain.nil
      simpa using h1
  | some head =>
    cases hch with
    | @cons _ rest hrest =>
      have hne : head :: rest ≠ [] := by simp
      have hl : (head :: rest).getLast? =
          some ((head :: rest).getLast hne) :=
        List.getLast?_eq_getLast _ hne
      have hfl : fl = some ((head :: rest).getLast hne) := by
        rw [hlast, hl]
      subst hfl
      refine ⟨?_, ?_, ?_⟩
      · have h5 := @chain_snoc nx (head :: rest) (some head)
          ((head :: rest).getLast hne) context (Chain.cons hrest) hnd hctx hl
        simpa [wq_push] using h5
      · rw [List.nodup_append]
        refine ⟨hnd, List.nodup_singleton _, fun a ha hb => ?_⟩
        have hac : a = context := by simpa using hb
        exact hctx (hac ▸ ha)
      · simp only [wq_push]
        rw [List.getLast?_concat]

/-- Helper: one unfolding step of the drain loop. -/
theorem drain_all_succ (q : WorkQueue) (fuel : Nat) (acc : List Nat) :
    drain_all q (fuel + 1) acc =
      match q.finished with
      | none => some (acc, { q with finished_last := none })
      | some entry =>
          drain_all { q with finished := q.next entry } fuel
            (acc ++ [entry]) := rfl

/-- Helper: with fuel one more than the chain length, the drain loop
returns exactly the chain, in order, and nulls both queue pointers while
leaving the `next` heap untouched. -/
theorem drain_all_chain :
    ∀ (l : List Nat) (q : WorkQueue) (acc : List Nat),
      Chain q.next q.finished l →
      drain_all q (l.length + 1) acc =
        some (acc ++ l, ⟨none, none, q.next⟩) := by
  intro l
  induction l with
  | nil =>
    intro q acc hch
    obtain ⟨f, fl, nx⟩ := q
    simp only at hch
    have hf : f = none := (chain_none_iff hch).mpr rfl
    subst hf
    simp [drain_all]
  | cons p rest ih =>
    intro q acc hch
    obtain ⟨f, fl, nx⟩ := q
    simp only at hch ⊢
    cases hch with
    | @cons _ _ hrest =>
      have h1 := ih ⟨nx p, fl, nx⟩ (acc ++ [p]) hrest
      simp only [List.length_cons]
      rw [drain_all_succ]
      simpa using h1

/-- Helper: whenever the drain loop returns at all, it returns a queue
whose head and tail pointers are both null and whose heap is unchanged. -/
theorem drain_all_result :
    ∀ (fuel : Nat) (q : WorkQueue) (acc : List Nat)
      (out : List Nat × WorkQueue),
      drain_all q fuel acc = some out →
      out.2.finished = none ∧ out.2.finished_last = none ∧
        out.2.next = q.next := by
  intro fuel
  induction fuel with
  | zero => intro q acc out h; simp [drain_all] at h
  | succ fuel ih =>
    intro q acc out h
    rw [drain_all_succ] at h
    obtain ⟨f, fl, nx⟩ := q
    simp only at h ⊢
    cases f with
    | none =>
      simp only [Option.some.injEq] at h
      rw [← h]
      exact ⟨rfl, rfl, rfl⟩
    | some entry =>
      exact ih ⟨nx entry, fl, nx⟩ (acc ++ [entry]) out h

/-- Helper: a sequence of pushes of fresh, distinct nodes appends them to
the chain in push order, preserving the invariant's components. -/
theorem push_all_chain :
    ∀ (ps : List Nat) (q : WorkQueue) (l : List Nat),
      Chain q.next q.finished l → l.Nodup →
      q.finished_last = l.getLast? → ps.Nodup → (∀ p ∈ ps, p ∉ l) →
      Chain (push_all ps q).next (push_all ps q).finished (l ++ ps) ∧
        (l ++ ps).Nodup ∧
        (push_all ps q).finished_last = (l ++ ps).getLast? := by
  intro ps
  induction ps with
  | nil =>
    intro q l h1 h2 h3 _ _
    simpa [push_all] using ⟨h1, h2, h3⟩
  | cons p ps ih =>
    intro q l h1 h2 h3 hnd hfresh
    have hstep := wq_push_chain q l p h1 h2 h3 (hfresh p (by simp))
    have hfresh' : ∀ x ∈ ps, x ∉ l ++ [p] := by
      intro x hx
      have hxl : x ∉ l := hfresh x (by simp [hx])
      have hxp : x ≠ p := by
        intro he
        exact (List.nodup_cons.mp hnd).1 (he ▸ hx)
      simp [hxl, hxp]
    have hrec := ih (wq_push p q) (l ++ [p]) hstep.1 hstep.2.1 hstep.2.2
      (List.nodup_cons.mp hnd).2 hfresh'
    have heq : push_all (p :: ps) q = push_all ps (wq_push p q) := rfl
    rw [heq]
    simpa [List.append_assoc] using hrec

/-- Claim C2: whatever the queue's state (its chain `l`) and whatever
number of back-to-back worker pushes `ps` happened before the loop's
single drain pass, the drain returns every item pushed before it began —
the prior chain followed by the new pushes in FIFO push order — and leaves
the queue empty (both pointers null). -/
theorem C2_drain_returns_all (q : WorkQueue) (l ps : List Nat)
    (hch : Chain q.next q.finished l) (hnd : l.Nodup)
    (hlast : q.finished_last = l.getLast?) (hps : ps.Nodup)
    (hfresh : ∀ p ∈ ps, p ∉ l) :
    drain_all (push_all ps q) ((l ++ ps).length + 1) [] =
      some (l ++ ps, ⟨none, none, (push_all ps q).next⟩) := by
  have h := push_all_chain ps q l hch hnd hlast hps hfresh
  simpa using drain_all_chain (l ++ ps) (push_all ps q) [] h.1

/-- Witness for C2: pushing 10 then 20 into the empty queue and draining
returns `[10, 20]` and empties the queue. -/
theorem C2_witness :
    drain_all (push_all [10, 20] empty_queue) 3 [] =
      some ([10, 20], ⟨none, none, (push_all [10, 20] empty_queue).next⟩) :=
  C2_drain_returns_all empty_queue [] [10, 20] Chain.nil (by simp) rfl
    (by simp) (by simp)

/-- Claim C9: under the completion-queue invariant (head null iff tail
null; the tail points at the last node reachable from the head, whose
`next` is null; the chain's nodes are distinct), the head/tail pair is
consistent, and both the worker-side `wq_push` of a fresh node and any
completed loop-side drain yield a queue satisfying the invariant again. -/
theorem C9_invariant_preserved (q : WorkQueue) (l : List Nat)
    (context : Nat) (hch : Chain q.next q.finished l) (hnd : l.Nodup)
    (hlast : q.finished_last = l.getLast?) (hctx : context ∉ l) :
    (q.finished = none ↔ q.finished_last = none) ∧
      (∀ p, q.finished_last = some p → q.next p = none) ∧
      QueueInv (wq_push context q) ∧
      (∀ fuel out, drain_all q fuel [] = some out → QueueInv out.2) := by
  refine ⟨?_, ?_, ?_, ?_⟩
  · rw [chain_none_iff hch, hlast, List.getLast?_eq_none_iff]
  · intro p hp
    exact chain_getLast_next l q.finished p hch (hlast ▸ hp)
  · exact ⟨l ++ [context], wq_push_chain q l context hch hnd hlast hctx⟩
  · intro fuel out hout
    obtain ⟨h1, h2, _⟩ := drain_all_result fuel q [] out hout
    exact ⟨[], h1 ▸ Chain.nil, by simp, by simp [h2]⟩

/-- Witness for C9 at the empty queue with fresh node 5. -/
theorem C9_witness :
    (empty_queue.finished = none ↔ empty_queue.finished_last = none) ∧
      (∀ p, empty_queue.finished_last = some p →
        empty_queue.next p = none) ∧
      QueueInv (wq_push 5 empty_queue) ∧
      (∀ fuel out, drain_all empty_queue fuel [] = some out →
        QueueInv out.2) :=
  C9_invariant_preserved empty_queue [] 5 Chain.nil (by simp) rfl (by simp)

/-- Helper: the inner trial-division loop from divisor `j ≥ 1` answers
`true` exactly when `i` has no divisor `d ≥ j` with `d * d ≤ i`. -/
theorem innerPrime_correct (i : Nat) :
    ∀ j, 1 ≤ j →
      (innerPrime i j = true ↔ ∀ d, j ≤ d → d * d ≤ i → ¬ d ∣ i) := by
  refine innerPrime.induct i
    (fun j => 1 ≤ j →
      (innerPrime i j = true ↔ ∀ d, j ≤ d → d * d ≤ i → ¬ d ∣ i))
    ?_ ?_ ?_
  · intro j h hj
    have hlt : i < j * j := (Nat.div_lt_iff_lt_mul (by omega)).mp h
    rw [innerPrime, if_pos h]
    simp only [true_iff]
    intro d hd hdd hdvd
    have hmul : j * j ≤ d * d := Nat.mul_le_mul hd hd
    omega
  · intro j h1 h2 hj
    have hsq : j * j ≤ i :=
      (Nat.le_div_iff_mul_le (by omega)).mp (Nat.le_of_not_lt h1)
    rw [innerPrime, if_neg h1, if_pos h2]
    simp only [Bool.false_eq_true, false_iff]
    intro hall
    exact hall j le_rfl hsq (Nat.dvd_of_mod_eq_zero h2)
  · intro j h1 h2 ih hj
    rw [innerPrime, if_neg h1, if_neg h2, ih (by omega)]
    constructor
    · intro hall d hd hdd hdvd
      rcases Nat.eq_or_lt_of_le hd with he | hlt
      · subst he
        exact h2 (Nat.mod_eq_zero_of_dvd hdvd)
      · exact hall d hlt hdd hdvd
    · intro hall d hd hdd hdvd
      exact hall d (by omega) hdd hdvd

/-- Helper: from its start divisor 2 the inner loop decides exactly the
spec predicate "no divisor in `[2, √i]`". -/
theorem innerPrime_iff_no_small_divisor (i : Nat) :
    innerPrime i 2 = true ↔ no_small_divisor i := by
  rw [innerPrime_correct i 2 (by omega)]
  unfold no_small_divisor
  constructor
  · intro h d hd
    rw [Finset.mem_Icc] at hd
    exact h d hd.1 (Nat.le_sqrt.mp hd.2)
  · intro h d hd hdd
    exact h d (Finset.mem_Icc.mpr ⟨hd, Nat.le_sqrt.mpr hdd⟩)

/-- Helper: one unfolding step of the fueled inner loop. -/
theorem inner_loop_fuel_succ (i j fuel : Nat) :
    inner_loop_fuel i j (fuel + 1) =
      if i / j < j then some true
      else if i % j = 0 then some false
      else inner_loop_fuel i (j + 1) fuel := rfl

/-- Helper: the fueled inner loop terminates, with the value of the total
function `innerPrime`, for every `i` and every start divisor `j`. -/
theorem inner_loop_fuel_agrees (i : Nat) :
    ∀ j, ∃ fuel, inner_loop_fuel i j fuel = some (innerPrime i j) := by
  refine innerPrime.induct i
    (fun j => ∃ fuel, inner_loop_fuel i j fuel = some (innerPrime i j))
    ?_ ?_ ?_
  · intro j h
    exact ⟨0 + 1, by rw [inner_loop_fuel_succ, if_pos h, innerPrime,
      if_pos h]⟩
  · intro j h1 h2
    exact ⟨0 + 1, by rw [inner_loop_fuel_succ, if_neg h1, if_pos h2,
      innerPrime, if_neg h1, if_pos h2]⟩
  · intro j h1 h2 ih
    obtain ⟨fuel, hf⟩ := ih
    refine ⟨fuel + 1, ?_⟩
    have hunf : innerPrime i j = innerPrime i (j + 1) := by
      rw [innerPrime, if_neg h1, if_neg h2]
    rw [inner_loop_fuel_succ, if_neg h1, if_neg h2, hf, hunf]

/-- Helper: one unfolding step of the fueled outer loop. -/
theorem outer_loop_succ (limit fuel i step result : Nat) :
    outer_loop limit (fuel + 1) i step result =
      if limit < i then some result
      else outer_loop limit fuel ((i + step) % ULONG_MOD) 2
        (if innerPrime i 2 then result + 1 else result) := rfl

/-- Helper: peeling the least element off a nonempty `Finset.Icc`. -/
theorem Icc_insert_succ (i limit : Nat) (hi : i ≤ limit) :
    Finset.Icc i limit = insert i (Finset.Icc (i + 1) limit) := by
  rw [Nat.Icc_succ_left, Finset.Ioc_insert_left hi]

/-- Helper: peeling the first element (and the excluded even successor)
off a filtered-interval count. -/
theorem filter_Icc_card_step (P : Nat → Prop) [DecidablePred P]
    (i limit : Nat) (hi : i ≤ limit) (hP1 : ¬ P (i + 1)) :
    ((Finset.Icc i limit).filter P).card =
      (if P i then 1 else 0) +
        ((Finset.Icc (i + 2) limit).filter P).card := by
  have hsplit := Icc_insert_succ i limit hi
  have hstep2 : (Finset.Icc (i + 1) limit).filter P =
      (Finset.Icc (i + 2) limit).filter P := by
    rcases Nat.lt_or_ge i limit with hlt | hge
    · have hsplit2 := Icc_insert_succ (i + 1) limit (by omega)
      have h12 : i + 1 + 1 = i + 2 := by omega
      rw [h12] at hsplit2
      rw [hsplit2, Finset.filter_insert, if_neg hP1]
    · have h1 : Finset.Icc (i + 1) limit = ∅ :=
        Finset.Icc_eq_empty (by omega)
      have h2 : Finset.Icc (i + 2) limit = ∅ :=
        Finset.Icc_eq_empty (by omega)
      rw [h1, h2]
  rw [hsplit, Finset.filter_insert, hstep2]
  by_cases hP : P i
  · rw [if_pos hP, if_pos hP, Finset.card_insert_of_not_mem (by
      intro hmem
      rw [Finset.mem_filter, Finset.mem_Icc] at hmem
      omega)]
    omega
  · rw [if_neg hP, if_neg hP]
    omega

/-- Helper: a number `≥ 3` passing the trial-division test is odd (an even
one has the divisor 2, and `2 ≤ √m` because `m ≥ 4`). -/
theorem no_small_divisor_odd {m : Nat} (h3 : 3 ≤ m)
    (hg : no_small_divisor m) : m % 2 = 1 := by
  by_contra he
  have h4 : 2 ∣ m := Nat.dvd_of_mod_eq_zero (by omega)
  have hmem : 2 ∈ Finset.Icc 2 (Nat.sqrt m) := by
    rw [Finset.mem_Icc]
    exact ⟨le_rfl, Nat.le_sqrt.mpr (by omega)⟩
  exact hg 2 hmem h4

/-- Helper: from an odd candidate `i ≥ 3` onwards the outer loop, given
fuel covering the remaining candidates, returns `result` plus the count of
odd numbers of `[i, limit]` passing the trial-division test.  The bound
`limit ≤ 2 ^ 64 - 2` keeps `i + 2` from wrapping. -/
theorem outer_loop_odd (limit : Nat) (hlim : limit ≤ ULONG_MOD - 2) :
    ∀ (n i result : Nat), i % 2 = 1 → 3 ≤ i → i ≤ limit + 2 →
      limit + 3 ≤ i + n →
      outer_loop limit n i 2 result =
        some (result + odd_good_count i limit) := by
  have hUM : ULONG_MOD = 18446744073709551616 := by norm_num [ULONG_MOD]
  rw [hUM] at hlim
  intro n
  induction n with
  | zero => intro i result h1 h2 h3 h4; omega
  | succ n ih =>
    intro i result h1 h2 h3 h4
    rw [outer_loop_succ]
    by_cases hgt : limit < i
    · rw [if_pos hgt]
      have hogc : odd_good_count i limit = 0 := by
        unfold odd_good_count
        rw [Finset.Icc_eq_empty (by omega)]
        simp
      rw [hogc]
      simp
    · rw [if_neg hgt]
      have hmod : (i + 2) % ULONG_MOD = i + 2 := by rw [hUM]; omega
      rw [hmod,
        ih (i + 2) (if innerPrime i 2 then result + 1 else result)
          (by omega) (by omega) (by omega) (by omega)]
      have hcount := filter_Icc_card_step
        (fun m => m % 2 = 1 ∧ no_small_divisor m) i limit (by omega)
        (fun hc => by have := hc.1; omega)
      have heq : (if innerPrime i 2 then result + 1 else result) +
          odd_good_count (i + 2) limit =
            result + odd_good_count i limit := by
        unfold odd_good_count
        rw [hcount]
        by_cases hp : no_small_divisor i
        · rw [if_pos (show i % 2 = 1 ∧ no_small_divisor i from ⟨h1, hp⟩),
            (innerPrime_iff_no_small_divisor i).mpr hp, if_pos rfl]
          omega
        · rw [if_neg
            (show ¬ (i % 2 = 1 ∧ no_small_divisor i) from fun hc => hp hc.2)]
          have hb : innerPrime i 2 = false := by
            cases hbv : innerPrime i 2
            · rfl
            · exact absurd ((innerPrime_iff_no_small_divisor i).mp hbv) hp
          rw [hb, if_neg (by simp)]
          omega
      rw [heq]

/-- Helper: for `limit ≥ 2` the naive count splits into the candidate 2
(which always passes) plus the odd candidates from 3 on; even numbers
`≥ 4` never pass, so restricting to odd numbers loses nothing. -/
theorem naive_count_split (limit : Nat) (h2 : 2 ≤ limit) :
    naive_prime_count limit = 1 + odd_good_count 3 limit := by
  unfold naive_prime_count odd_good_count
  have hsplit : Finset.Icc 2 limit = insert 2 (Finset.Icc 3 limit) := by
    have h := Icc_insert_succ 2 limit h2
    norm_num at h
    exact h
  rw [hsplit, Finset.filter_insert,
    if_pos (by decide : no_small_divisor 2),
    Finset.card_insert_of_not_mem (by
      intro hmem
      rw [Finset.mem_filter, Finset.mem_Icc] at hmem
      omega)]
  have hfe : (Finset.Icc 3 limit).filter no_small_divisor =
      (Finset.Icc 3 limit).filter
        fun m => m % 2 = 1 ∧ no_small_divisor m := by
    apply Finset.filter_congr
    intro m hm
    rw [Finset.mem_Icc] at hm
    constructor
    · intro hg
      exact ⟨no_small_divisor_odd hm.1 hg, hg⟩
    · exact fun hc => hc.2
  rw [hfe]
  omega

/-- Helper: for every limit up to `2 ^ 64 - 2` the worker computation
finishes within `limit + 3` iterations with the naive prime count. -/
theorem compute_primes_eq_naive (limit : Nat)
    (hlim : limit ≤ ULONG_MOD - 2) :
    compute_primes limit (limit + 2 + 1) =
      some (naive_prime_count limit) := by
  unfold compute_primes
  rcases Nat.lt_or_ge limit 2 with hl2 | hl2
  · rw [outer_loop_succ, if_pos hl2]
    unfold naive_prime_count
    rw [Finset.Icc_eq_empty (by omega)]
    simp
  · rw [outer_loop_succ, if_neg (by omega)]
    have h3 : (2 + 1) % ULONG_MOD = 3 := by norm_num [ULONG_MOD]
    have hip2 : innerPrime 2 2 = true :=
      (innerPrime_iff_no_small_divisor 2).mpr (by decide)
    rw [h3, hip2, if_pos rfl,
      outer_loop_odd limit hlim (limit + 2) 3 (0 + 1) (by omega) (by omega)
        (by omega) (by omega),
      naive_count_split limit hl2]

/-- Claim C1, amended: for every input limit *strictly below*
`ULONG_MAX = 2 ^ 64 - 1` the worker computation returns the number of
integers in `[2, limit]` having no divisor in `[2, √n]`; in particular
`limit = 100` yields 25, `limit = 1` yields 0, and `limit = 2` yields 1.
(At `limit = 2 ^ 64 - 1` the computation never returns; see the
counterexample.) -/
theorem C1_worker_count (limit : Nat) (hlim : limit < 2 ^ 64 - 1) :
    (∃ fuel, compute_primes limit fuel = some (naive_prime_count limit)) ∧
      naive_prime_count 100 = 25 ∧ naive_prime_count 1 = 0 ∧
      naive_prime_count 2 = 1 := by
  refine ⟨⟨limit + 2 + 1, compute_primes_eq_naive limit ?_⟩,
    by decide, by decide, by decide⟩
  have hUM : ULONG_MOD = 18446744073709551616 := by norm_num [ULONG_MOD]
  have h2 : (2 : Nat) ^ 64 - 1 = 18446744073709551615 := by norm_num
  rw [h2] at hlim
  rw [hUM]
  omega

/-- Witness for C1 at `limit = 100`. -/
theorem C1_witness :
    (∃ fuel, compute_primes 100 fuel = some (naive_prime_count 100)) ∧
      naive_prime_count 100 = 25 ∧ naive_prime_count 1 = 0 ∧
      naive_prime_count 2 = 1 :=
  C1_worker_count 100 (by norm_num)

/-- Helper: with `limit = ULONG_MAX` every reachable outer-loop state has
an odd candidate below `2 ^ 64`, so the exit guard `i > limit` never fires
and the wrap `ULONG_MAX + 2 → 1` keeps the loop going forever. -/
theorem outer_loop_max_diverges :
    ∀ (fuel i result : Nat), i % 2 = 1 → i < ULONG_MOD →
      outer_loop (2 ^ 64 - 1) fuel i 2 result = none := by
  have hUM : ULONG_MOD = 18446744073709551616 := by norm_num [ULONG_MOD]
  intro fuel
  induction fuel with
  | zero => intro i result _ _; rfl
  | succ fuel ih =>
    intro i result h1 h2
    rw [hUM] at h2
    rw [outer_loop_succ, if_neg (by norm_num; omega)]
    exact ih ((i + 2) % ULONG_MOD) _ (by rw [hUM]; omega)
      (by rw [hUM]; omega)

/-- Claim C1 as stated is false at the concrete input
`limit = ULONG_MAX = 2 ^ 64 - 1`: the candidate `i` wraps around
(`ULONG_MAX + 2` overflows to 1) and stays odd and `≤ limit` forever, so
the worker computation never returns anything at all. -/
theorem C1_counterexample : compute_primes_diverges (2 ^ 64 - 1) := by
  show ∀ fuel, compute_primes (2 ^ 64 - 1) fuel = none
  intro fuel
  unfold compute_primes
  cases fuel with
  | zero => rfl
  | succ fuel =>
    rw [outer_loop_succ, if_neg (by norm_num)]
    have h3 : (2 + 1) % ULONG_MOD = 3 := by norm_num [ULONG_MOD]
    rw [h3]
    exact outer_loop_max_diverges fuel 3 _ (by norm_num)
      (by norm_num [ULONG_MOD])

/-- Claim C10: for every limit strictly below the maximum `unsigned long`
value the outer counting loop terminates (the candidate strictly increases
without wrapping until it exceeds the limit), and the inner trial-division
loop terminates for every candidate `i ≥ 1`, agreeing with the total
function `innerPrime`. -/
theorem C10_loops_terminate (limit : Nat) (hlim : limit < 2 ^ 64 - 1) :
    (∃ fuel r, compute_primes limit fuel = some r) ∧
      (∀ i, 1 ≤ i →
        ∃ fuel, inner_loop_fuel i 2 fuel = some (innerPrime i 2)) := by
  constructor
  · refine ⟨limit + 2 + 1, naive_prime_count limit,
      compute_primes_eq_naive limit ?_⟩
    have hUM : ULONG_MOD = 18446744073709551616 := by norm_num [ULONG_MOD]
    have h2 : (2 : Nat) ^ 64 - 1 = 18446744073709551615 := by norm_num
    rw [h2] at hlim
    rw [hUM]
    omega
  · intro i _
    exact inner_loop_fuel_agrees i 2

/-- Witness for C10 at `limit = 5`. -/
theorem C10_witness :
    (∃ fuel r, compute_primes 5 fuel = some r) ∧
      (∀ i, 1 ≤ i →
        ∃ fuel, inner_loop_fuel i 2 fuel = some (innerPrime i 2)) :=
  C10_loops_terminate 5 (by norm_num)


end SlowDbusServer
